import Mathlib

/- Verification of the command-validation and execution layer of the `sai`
   command runner: a shallow embedding of `src/safety.rs` (tokenize, whitelist
   check, forbidden-operator scanner) and `src/executor.rs` (glob expansion,
   safe-mode argv construction), with theorems checking the specified
   properties against these definitions. -/

namespace Sai

/-! ## Operator scanner (src/safety.rs, `detect_forbidden_operator`)

The scanner walks the raw command string once, tracking `in_single`,
`in_double` and `escaped`, and returns the textual form of the first
forbidden shell construct it finds. `detectGo` is the loop body; the three
booleans are the loop state, and peeking at the next character is reading
the head of the remaining list. -/

def detectGo : List Char → Bool → Bool → Bool → Option String
  | [], _, _, _ => none
  | c :: rest, inS, inD, esc =>
    if esc then detectGo rest inS inD false
    else if c = '\\' ∧ inS = false then detectGo rest inS inD true
    else if c = '\'' ∧ inD = false then detectGo rest (!inS) inD false
    else if c = '"' ∧ inS = false then detectGo rest inS (!inD) false
    else if inS then detectGo rest inS inD false
    else if c = '$' then
      if rest.head? = some '(' then some "$(...)"
      else if rest.head? = some '{' then some "$\x7b...\x7d"
      else detectGo rest inS inD false
    else if c = '`' then some "`...`"
    else if inD then detectGo rest inS inD false
    else if c = '|' then
      if rest.head? = some '|' then some "||"
      else if rest.head? = some '&' then some "|&"
      else some "|"
    else if c = '&' then
      if rest.head? = some '&' then some "&&"
      else some "&"
    else if c = ';' then some ";"
    else if c = '>' then
      if rest.head? = some '>' then some ">>"
      else if rest.head? = some '(' then some ">("
      else some ">"
    else if c = '<' then
      if rest.head? = some '<' then some "<<"
      else if rest.head? = some '(' then some "<("
      else some "<"
    else detectGo rest inS inD false

def detect_forbidden_operator (cmd_line : String) : Option String :=
  detectGo cmd_line.data false false false

/-! ## Quote-state characterisation

To state claims about "unquoted, unescaped" occurrences we compute, for any
prefix of the input, the scanner state `(in_single, in_double, escaped)` it
would reach there.  `quoteStep` is exactly the state transition performed by
one iteration of the scanner loop on a character that does not make it
return. -/

def quoteStep (c : Char) : Bool × Bool × Bool → Bool × Bool × Bool
  | (inS, inD, esc) =>
    if esc then (inS, inD, false)
    else if c = '\\' ∧ inS = false then (inS, inD, true)
    else if c = '\'' ∧ inD = false then (!inS, inD, false)
    else if c = '"' ∧ inS = false then (inS, !inD, false)
    else (inS, inD, false)

def quoteState (l : List Char) (st : Bool × Bool × Bool) : Bool × Bool × Bool :=
  l.foldl (fun s c => quoteStep c s) st

/-- One of the operator characters the scanner forbids outside all quoting. -/
def structuralOp (c : Char) : Bool :=
  c == '|' || c == '&' || c == ';' || c == '>' || c == '<'

/-- A character that starts command or parameter substitution (forbidden even
inside double quotes): a backtick, or `$` immediately followed by `(` or
`\x7b`. -/
def substStart (c : Char) (suf : List Char) : Bool :=
  c == '`' || (c == '$' && (suf.head? == some '(' || suf.head? == some '{'))

/-- The character `c`, with remaining input `suf`, is a forbidden occurrence
when the scanner reaches it in state `st = (in_single, in_double, escaped)`:
it is unescaped, outside single quotes, and is either a substitution start or
a structural operator outside double quotes. -/
def forbiddenAt (st : Bool × Bool × Bool) (c : Char) (suf : List Char) : Prop :=
  st.2.2 = false ∧ st.1 = false ∧
    (substStart c suf = true ∨ (st.2.1 = false ∧ structuralOp c = true))

instance (st : Bool × Bool × Bool) (c : Char) (suf : List Char) :
    Decidable (forbiddenAt st c suf) := by
  unfold forbiddenAt; infer_instance

/-- A character occurrence that could ever make the scanner return: the
candidate set of "forbidden characters" independent of quoting state. -/
def dangerousChar (c : Char) (suf : List Char) : Bool :=
  structuralOp c || substStart c suf

/-! ## Tokenizer

The source delegates word splitting to the external shell-words crate
(`shell_words::split`), which is not part of this repository. -/

/-- Word-separator characters for the tokenizer. -/
def isSep (c : Char) : Bool := c == ' ' || c == '\t' || c == '\n'

/-- Tokenizer states: between words, inside an unquoted word, after a
backslash (from between words / inside a word), inside single quotes, inside
double quotes, after a backslash inside double quotes. -/
inductive TokState
  | delim | delimBs | word | wordBs | single | double | doubleBs
deriving DecidableEq

/-- Modelled from the spec: the Tokenizer component (spec section 4.1); the
source implements it with the external shell-words crate, whose code is not
in this repository.  POSIX-style shell word splitting: outside quotes,
unescaped whitespace separates words; inside single quotes all characters are
literal; inside double quotes a backslash escapes only quote, backslash,
dollar and backtick and any other backslash pair stays a literal backslash
plus the character; outside quotes a backslash escapes the next character
verbatim (a trailing lone backslash stays a literal backslash); an
unterminated quote at end of string is a parse error (`none`); empty input
yields an empty token sequence.  The word and token accumulators are passed
along the scan. -/
def tokGo : TokState → List Char → List Char → List (List Char) → Option (List (List Char))
  | .delim, [], _, acc => some acc
  | .delim, c :: rest, w, acc =>
    if c = '\'' then tokGo .single rest w acc
    else if c = '"' then tokGo .double rest w acc
    else if c = '\\' then tokGo .delimBs rest w acc
    else if isSep c then tokGo .delim rest w acc
    else tokGo .word rest (w ++ [c]) acc
  | .delimBs, [], w, acc => some (acc ++ [w ++ ['\\']])
  | .delimBs, c :: rest, w, acc => tokGo .word rest (w ++ [c]) acc
  | .word, [], w, acc => some (acc ++ [w])
  | .word, c :: rest, w, acc =>
    if c = '\'' then tokGo .single rest w acc
    else if c = '"' then tokGo .double rest w acc
    else if c = '\\' then tokGo .wordBs rest w acc
    else if isSep c then tokGo .delim rest [] (acc ++ [w])
    else tokGo .word rest (w ++ [c]) acc
  | .wordBs, [], w, acc => some (acc ++ [w ++ ['\\']])
  | .wordBs, c :: rest, w, acc => tokGo .word rest (w ++ [c]) acc
  | .single, [], _, _ => none
  | .single, c :: rest, w, acc =>
    if c = '\'' then tokGo .word rest w acc
    else tokGo .single rest (w ++ [c]) acc
  | .double, [], _, _ => none
  | .double, c :: rest, w, acc =>
    if c = '"' then tokGo .word rest w acc
    else if c = '\\' then tokGo .doubleBs rest w acc
    else tokGo .double rest (w ++ [c]) acc
  | .doubleBs, [], _, _ => none
  | .doubleBs, c :: rest, w, acc =>
    if c = '"' ∨ c = '\\' ∨ c = '$' ∨ c = '`' then tokGo .double rest (w ++ [c]) acc
    else tokGo .double rest (w ++ ['\\', c]) acc

/-- Modelled from the spec: `tokenize(raw) -> Result<TokenSequence, ParseError>`
(spec section 4.1); `none` is the parse error. -/
def tokenize (s : String) : Option (List String) :=
  (tokGo .delim s.data [] []).map (List.map String.mk)

/-! ## Validation boundary (src/safety.rs, `validate_and_split_command`)

The source returns `Result<Vec<String>, anyhow::Error>`; the distinct error
messages are embedded as the spec's error kinds.  The boolean mode flag of
the source (true relaxes operator blocking; the `--` flag the source names
with the word for "not safe") is `relaxedMode`. -/

inductive ValidationVerdict
  | accepted (tokens : List String)
  | malformedCommand
  | emptyCommand
  | disallowedTool
  | disallowedOperator (op : String)
deriving DecidableEq

def validate_and_split_command (cmd_line : String) (allowed_tools : List String)
    (relaxedMode : Bool) : ValidationVerdict :=
  match tokenize cmd_line with
  | none => .malformedCommand
  | some [] => .emptyCommand
  | some (first :: rest) =>
    if (allowed_tools.any (fun t => t == first)) = false then .disallowedTool
    else if relaxedMode = false then
      match detect_forbidden_operator cmd_line with
      | some op => .disallowedOperator op
      | none => .accepted (first :: rest)
    else .accepted (first :: rest)

/-! ## Executor (src/executor.rs)

The external glob crate is modelled as a parameter `globFs`:
`globFs arg = none` is a pattern error (`glob(arg)` returned `Err`);
`globFs arg = some entries` is the iterator of matches, where an entry
`none` is a read error (`entry.ok()` fails) and `some p` a matched path
already rendered to a string (`to_string_lossy`). -/

def expand_glob_if_needed (globFs : String → Option (List (Option String)))
    (arg : String) : List String :=
  if arg.data.contains '*' = false ∧ arg.data.contains '?' = false ∧
      arg.data.contains '[' = false then
    [arg]
  else
    match globFs arg with
    | some entries =>
      let expanded := entries.filterMap id
      if expanded.isEmpty then [arg] else expanded
    | none => [arg]

/-- The argv assembled by the safe-mode branch of
`ShellCommandExecutor::execute`: the program `tokens[0]` followed by the
per-argument glob expansion of `tokens[1..]`.  The source indexes `tokens[0]`
directly and is only called with a validated, non-empty token list; the empty
case here returns an empty argv. -/
def safe_mode_argv (globFs : String → Option (List (Option String))) :
    List String → List String
  | [] => []
  | t0 :: rest => t0 :: rest.flatMap (expand_glob_if_needed globFs)

/-- A modelled glob result used as a concrete example: the working directory
holds `a.txt` and `b.txt`, so the pattern `*.txt` matches both and every
other pattern matches nothing. -/
def exampleFs : String → Option (List (Option String)) :=
  fun a => if a = "*.txt" then some [some "a.txt", some "b.txt"] else some []

/-! ## Joining tokens and plain characters (round-trip property) -/

/-- A character that is inert for both the tokenizer and the operator
scanner and is not a glob metacharacter: not a separator, quote, backslash,
forbidden-operator character, substitution character, or `*`, `?`, `[`. -/
def plainChar (c : Char) : Bool :=
  !(isSep c || c == '\'' || c == '"' || c == '\\' || c == '|' || c == '&' ||
    c == ';' || c == '>' || c == '<' || c == '$' || c == '`' || c == '*' ||
    c == '?' || c == '[')

/-- Joining token character lists with single-space separators. -/
def joinChars : List (List Char) → List Char
  | [] => []
  | [w] => w
  | w :: ws => w ++ ' ' :: joinChars ws

/-- Joining tokens with single-space separators. -/
def joinTokens : List String → String
  | [] => ""
  | [t] => t
  | t :: ts => t ++ " " ++ joinTokens ts

/-! ## Scanner soundness and completeness -/


/-- If the head of the remaining input is a forbidden occurrence for the
current scanner state, the scanner returns at it. -/
lemma forbiddenAt_head (c : Char) (suf : List Char) (inS inD esc : Bool)
    (hf : forbiddenAt (inS, inD, esc) c suf) :
    ∃ op, detectGo (c :: suf) inS inD esc = some op := by
  obtain ⟨hesc, hinS, hcase⟩ := hf
  have he : esc = false := hesc
  have hs : inS = false := hinS
  subst he; subst hs
  rcases hcase with hsub | ⟨hinD, hstr⟩
  · simp only [substStart, Bool.or_eq_true, Bool.and_eq_true, beq_iff_eq] at hsub
    rcases hsub with hc | ⟨hc, hh⟩
    · subst hc
      exact ⟨"`...`", by simp [detectGo]⟩
    · subst hc
      rcases hh with hh | hh
      · exact ⟨"$(...)", by simp [detectGo, hh]⟩
      · exact ⟨"$\x7b...\x7d", by simp [detectGo, hh]⟩
  · have hd : inD = false := hinD
    subst hd
    simp only [structuralOp, Bool.or_eq_true, beq_iff_eq] at hstr
    rcases hstr with (((hc | hc) | hc) | hc) | hc
    · subst hc
      by_cases h2 : suf.head? = some '|'
      · exact ⟨"||", by simp [detectGo, h2]⟩
      · by_cases h3 : suf.head? = some '&'
        · exact ⟨"|&", by simp [detectGo, h2, h3]⟩
        · exact ⟨"|", by simp [detectGo, h2, h3]⟩
    · subst hc
      by_cases h2 : suf.head? = some '&'
      · exact ⟨"&&", by simp [detectGo, h2]⟩
      · exact ⟨"&", by simp [detectGo, h2]⟩
    · subst hc
      exact ⟨";", by simp [detectGo]⟩
    · subst hc
      by_cases h2 : suf.head? = some '>'
      · exact ⟨">>", by simp [detectGo, h2]⟩
      · by_cases h3 : suf.head? = some '('
        · exact ⟨">(", by simp [detectGo, h2, h3]⟩
        · exact ⟨">", by simp [detectGo, h2, h3]⟩
    · subst hc
      by_cases h2 : suf.head? = some '<'
      · exact ⟨"<<", by simp [detectGo, h2]⟩
      · by_cases h3 : suf.head? = some '('
        · exact ⟨"<(", by simp [detectGo, h2, h3]⟩
        · exact ⟨"<", by simp [detectGo, h2, h3]⟩


/-- When the head of the remaining input is not a forbidden occurrence, the
scanner consumes it, updating its state exactly by `quoteStep`. -/
lemma detectGo_step (p : Char) (t : List Char) (inS inD esc : Bool)
    (hnf : ¬ forbiddenAt (inS, inD, esc) p t) :
    detectGo (p :: t) inS inD esc =
      detectGo t (quoteStep p (inS, inD, esc)).1 (quoteStep p (inS, inD, esc)).2.1
        (quoteStep p (inS, inD, esc)).2.2 := by
  cases esc with
  | true => simp [detectGo, quoteStep]
  | false =>
    by_cases h1 : p = '\\' ∧ inS = false
    · simp [detectGo, quoteStep, h1]
    · by_cases h2 : p = '\'' ∧ inD = false
      · simp [detectGo, quoteStep, h1, h2]
      · by_cases h3 : p = '"' ∧ inS = false
        · simp [detectGo, quoteStep, h1, h2, h3]
        · cases inS with
          | true => simp [detectGo, quoteStep, h1, h2, h3]
          | false =>
            replace h1 : p ≠ '\\' := fun hp => h1 ⟨hp, rfl⟩
            replace h3 : p ≠ '"' := fun hp => h3 ⟨hp, rfl⟩
            by_cases h5 : p = '$'
            · subst h5
              by_cases hh : t.head? = some '('
              · exact absurd ⟨rfl, rfl, Or.inl (by simp [substStart, hh])⟩ hnf
              · by_cases hh2 : t.head? = some '{'
                · exact absurd ⟨rfl, rfl, Or.inl (by simp [substStart, hh2])⟩ hnf
                · simp [detectGo, quoteStep, h1, h2, h3, hh, hh2]
            · by_cases h6 : p = '`'
              · exact absurd ⟨rfl, rfl, Or.inl (by simp [substStart, h6])⟩ hnf
              · cases inD with
                | true => simp [detectGo, quoteStep, h1, h3, h5, h6]
                | false =>
                  replace h2 : p ≠ '\'' := fun hp => h2 ⟨hp, rfl⟩
                  by_cases h7 : p = '|'
                  · exact absurd ⟨rfl, rfl, Or.inr ⟨rfl, by simp [structuralOp, h7]⟩⟩ hnf
                  · by_cases h8 : p = '&'
                    · exact absurd ⟨rfl, rfl, Or.inr ⟨rfl, by simp [structuralOp, h8]⟩⟩ hnf
                    · by_cases h9 : p = ';'
                      · exact absurd ⟨rfl, rfl, Or.inr ⟨rfl, by simp [structuralOp, h9]⟩⟩ hnf
                      · by_cases h10 : p = '>'
                        · exact absurd ⟨rfl, rfl, Or.inr ⟨rfl, by simp [structuralOp, h10]⟩⟩ hnf
                        · by_cases h11 : p = '<'
                          · exact absurd ⟨rfl, rfl, Or.inr ⟨rfl, by simp [structuralOp, h11]⟩⟩ hnf
                          · simp [detectGo, quoteStep, h1, h2, h3, h5, h6, h7, h8, h9, h10, h11]


lemma quoteState_cons (p : Char) (pre : List Char) (st : Bool × Bool × Bool) :
    quoteState (p :: pre) st = quoteState pre (quoteStep p st) := rfl

/-- Completeness of the scanner: if it finds nothing, then no position of the
input is a forbidden occurrence for the state the scanner reaches there. -/
lemma detectGo_none_not_forbiddenAt (pre : List Char) :
    ∀ (c : Char) (suf : List Char) (inS inD esc : Bool),
      detectGo (pre ++ c :: suf) inS inD esc = none →
      ¬ forbiddenAt (quoteState pre (inS, inD, esc)) c suf := by
  induction pre with
  | nil =>
    intro c suf inS inD esc h hf
    obtain ⟨op, hop⟩ := forbiddenAt_head c suf inS inD esc (by simpa [quoteState] using hf)
    simp only [List.nil_append] at h
    rw [h] at hop
    exact Option.noConfusion hop
  | cons p pre ih =>
    intro c suf inS inD esc h hf
    rw [List.cons_append] at h
    by_cases hPF : forbiddenAt (inS, inD, esc) p (pre ++ c :: suf)
    · obtain ⟨op, hop⟩ := forbiddenAt_head _ _ _ _ _ hPF
      rw [h] at hop
      exact Option.noConfusion hop
    · have hstep := detectGo_step p (pre ++ c :: suf) inS inD esc hPF
      rw [hstep] at h
      rcases hq : quoteStep p (inS, inD, esc) with ⟨a, b, c2⟩
      rw [hq] at h
      rw [quoteState_cons, hq] at hf
      exact ih c suf a b c2 (by simpa using h) hf

/-- Soundness of the scanner: if it returns an operator, some position of the
input is a forbidden occurrence for the state the scanner reaches there. -/
lemma detectGo_some_forbidden (l : List Char) :
    ∀ (inS inD esc : Bool) (op : String), detectGo l inS inD esc = some op →
      ∃ pre c suf, l = pre ++ c :: suf ∧
        forbiddenAt (quoteState pre (inS, inD, esc)) c suf := by
  induction l with
  | nil => intro inS inD esc op h; simp [detectGo] at h
  | cons p t ih =>
    intro inS inD esc op h
    by_cases hPF : forbiddenAt (inS, inD, esc) p t
    · exact ⟨[], p, t, rfl, by simpa [quoteState] using hPF⟩
    · have hstep := detectGo_step p t inS inD esc hPF
      rw [hstep] at h
      rcases hq : quoteStep p (inS, inD, esc) with ⟨a, b, c2⟩
      rw [hq] at h
      obtain ⟨pre, c, suf, heq, hforb⟩ := ih a b c2 op (by simpa using h)
      exact ⟨p :: pre, c, suf, by rw [heq, List.cons_append], by rw [quoteState_cons, hq]; exact hforb⟩


/-! ## Positions as indices -/

lemma take_append_cons (pre : List Char) (c : Char) (suf : List Char) :
    (pre ++ c :: suf).take pre.length = pre := by
  induction pre with
  | nil => simp
  | cons p pre ih => simp [ih]

lemma get_append_cons (pre : List Char) (c : Char) (suf : List Char)
    (h : pre.length < (pre ++ c :: suf).length) :
    (pre ++ c :: suf).get ⟨pre.length, h⟩ = c := by
  induction pre with
  | nil => simp
  | cons p pre ih => simpa [List.get_eq_getElem] using ih (by simp)

lemma drop_append_cons (pre : List Char) (c : Char) (suf : List Char) :
    (pre ++ c :: suf).drop (pre.length + 1) = suf := by
  induction pre with
  | nil => simp
  | cons p pre ih => simp [ih]

lemma forbiddenAt_dangerousChar (st : Bool × Bool × Bool) (c : Char)
    (suf : List Char) (hf : forbiddenAt st c suf) :
    dangerousChar c suf = true := by
  obtain ⟨-, -, hcase⟩ := hf
  rcases hcase with hsub | ⟨-, hstr⟩
  · simp [dangerousChar, hsub]
  · simp [dangerousChar, hstr]

/-- If every dangerous character occurrence sits inside single quotes, the
scanner finds nothing. -/
lemma no_dangerous_unquoted_none (l : List Char)
    (h : ∀ i : Fin l.length, dangerousChar (l.get i) (l.drop (i.1 + 1)) = true →
      (quoteState (l.take i.1) (false, false, false)).1 = true) :
    detectGo l false false false = none := by
  cases hd : detectGo l false false false with
  | none => rfl
  | some op =>
    obtain ⟨pre, c, suf, heq, hf⟩ := detectGo_some_forbidden l false false false op hd
    subst heq
    have hlen : pre.length < (pre ++ c :: suf).length := by simp
    have hq := h ⟨pre.length, hlen⟩
    rw [get_append_cons, drop_append_cons, take_append_cons] at hq
    have := hq (forbiddenAt_dangerousChar _ _ _ hf)
    rw [hf.2.1] at this
    exact Bool.noConfusion this

/-- If every dangerous character occurrence is escaped, the scanner finds
nothing. -/
lemma all_dangerous_escaped_none (l : List Char)
    (h : ∀ i : Fin l.length, dangerousChar (l.get i) (l.drop (i.1 + 1)) = true →
      (quoteState (l.take i.1) (false, false, false)).2.2 = true) :
    detectGo l false false false = none := by
  cases hd : detectGo l false false false with
  | none => rfl
  | some op =>
    obtain ⟨pre, c, suf, heq, hf⟩ := detectGo_some_forbidden l false false false op hd
    subst heq
    have hlen : pre.length < (pre ++ c :: suf).length := by simp
    have hq := h ⟨pre.length, hlen⟩
    rw [get_append_cons, drop_append_cons, take_append_cons] at hq
    have := hq (forbiddenAt_dangerousChar _ _ _ hf)
    rw [hf.1] at this
    exact Bool.noConfusion this


/-! ## Claims about the operator scanner -/

/-- C3: For every string containing an unescaped, unquoted occurrence of a
forbidden character or construct (`|`, `&`, `;`, `>`, `<`, a backtick, `$(`
or `$\x7b`) outside single quotes, the scanner returns `some`, even with no
surrounding whitespace, and two-character operators are detected by peeking
at the next character before falling back to the one-character form. -/
theorem scanner_detects_forbidden_occurrence :
    (∀ (s : String) (pre : List Char) (c : Char) (suf : List Char),
      s.data = pre ++ c :: suf →
      forbiddenAt (quoteState pre (false, false, false)) c suf →
      ∃ op, detect_forbidden_operator s = some op) ∧
    detect_forbidden_operator "ls|wc" = some "|" ∧
    detect_forbidden_operator "a||b" = some "||" ∧
    detect_forbidden_operator "a|&b" = some "|&" ∧
    detect_forbidden_operator "a&&b" = some "&&" ∧
    detect_forbidden_operator "a>>b" = some ">>" ∧
    detect_forbidden_operator "a>(b" = some ">(" ∧
    detect_forbidden_operator "a<<b" = some "<<" ∧
    detect_forbidden_operator "a<(b" = some "<(" ∧
    detect_forbidden_operator "a;b" = some ";" := by
  refine ⟨?_, rfl, rfl, rfl, rfl, rfl, rfl, rfl, rfl, rfl⟩
  intro s pre c suf hdata hf
  unfold detect_forbidden_operator
  rw [hdata]
  cases hd : detectGo (pre ++ c :: suf) false false false with
  | none => exact absurd hf (detectGo_none_not_forbiddenAt pre c suf false false false hd)
  | some op => exact ⟨op, rfl⟩

theorem scanner_detects_forbidden_occurrence_witness :
    ∃ op, detect_forbidden_operator "ls|wc" = some op :=
  scanner_detects_forbidden_occurrence.1 "ls|wc" ['l', 's'] '|' ['w', 'c']
    rfl (by decide)

/-- C4: command and parameter substitution are detected even inside double
quotes: a backtick or a `$` followed by `(` or `\x7b`, reached outside single
quotes in any double-quote state, makes the scanner return `some`. -/
theorem scanner_detects_subst_in_double_quotes :
    (∀ (s : String) (pre : List Char) (c : Char) (suf : List Char) (inD : Bool),
      s.data = pre ++ c :: suf →
      quoteState pre (false, false, false) = (false, inD, false) →
      substStart c suf = true →
      ∃ op, detect_forbidden_operator s = some op) ∧
    detect_forbidden_operator "echo \"$(whoami)\"" = some "$(...)" := by
  refine ⟨?_, rfl⟩
  intro s pre c suf inD hdata hq hsub
  have hf : forbiddenAt (quoteState pre (false, false, false)) c suf := by
    rw [hq]
    exact ⟨rfl, rfl, Or.inl hsub⟩
  unfold detect_forbidden_operator
  rw [hdata]
  cases hd : detectGo (pre ++ c :: suf) false false false with
  | none => exact absurd hf (detectGo_none_not_forbiddenAt pre c suf false false false hd)
  | some op => exact ⟨op, rfl⟩

theorem scanner_detects_subst_in_double_quotes_witness :
    ∃ op, detect_forbidden_operator "echo \"$(whoami)\"" = some op :=
  scanner_detects_subst_in_double_quotes.1 "echo \"$(whoami)\""
    ['e', 'c', 'h', 'o', ' ', '"'] '$' "(whoami)\"".data true rfl
    (by decide) (by decide)

/-- C5: single quotes make every character inert: if every dangerous
character occurrence lies strictly inside a single-quoted span (the scanner
state reached at its position has `in_single = true`), the scanner returns
`none`. -/
theorem single_quotes_make_operators_inert :
    (∀ s : String,
      (∀ i : Fin s.data.length,
        dangerousChar (s.data.get i) (s.data.drop (i.1 + 1)) = true →
        (quoteState (s.data.take i.1) (false, false, false)).1 = true) →
      detect_forbidden_operator s = none) ∧
    detect_forbidden_operator "echo '|'" = none := by
  exact ⟨fun s h => no_dangerous_unquoted_none s.data h, rfl⟩

theorem single_quotes_make_operators_inert_witness :
    detect_forbidden_operator "grep 'a|b' f" = none :=
  single_quotes_make_operators_inert.1 "grep 'a|b' f" (by decide)

/-- C6: a backslash outside single quotes escapes the immediately following
character for the operator scan, making it inert: if every dangerous
character occurrence is escaped (the scanner state reached at its position
has `escaped = true`), the scanner returns `none`. -/
theorem backslash_escape_makes_operators_inert :
    (∀ s : String,
      (∀ i : Fin s.data.length,
        dangerousChar (s.data.get i) (s.data.drop (i.1 + 1)) = true →
        (quoteState (s.data.take i.1) (false, false, false)).2.2 = true) →
      detect_forbidden_operator s = none) ∧
    detect_forbidden_operator "echo \\|" = none := by
  exact ⟨fun s h => all_dangerous_escaped_none s.data h, rfl⟩

theorem backslash_escape_makes_operators_inert_witness :
    detect_forbidden_operator "echo \\| \\&" = none :=
  backslash_escape_makes_operators_inert.1 "echo \\| \\&" (by decide)


/-! ## Claims about the validation boundary -/

/-- C1: whitelist enforcement: whenever tokenization produces a first token
that is not an exact string member of the allowed set, validation rejects
with the disallowed-tool error, in either mode; matching is exact string
equality over the supplied list. -/
theorem whitelist_rejects_unlisted_tool
    (raw : String) (allowed : List String) (relaxedMode : Bool)
    (first : String) (rest : List String)
    (htok : tokenize raw = some (first :: rest))
    (hnot : ∀ t ∈ allowed, t ≠ first) :
    validate_and_split_command raw allowed relaxedMode = .disallowedTool := by
  have hany : (allowed.any fun t => t == first) = false := by
    rw [List.any_eq_false]
    intro t ht
    simpa using hnot t ht
  simp [validate_and_split_command, htok, hany]

theorem whitelist_rejects_unlisted_tool_witness :
    validate_and_split_command "rm -rf /" ["jq"] false = .disallowedTool ∧
    validate_and_split_command "rm -rf /" ["jq"] true = .disallowedTool :=
  ⟨whitelist_rejects_unlisted_tool "rm -rf /" ["jq"] false "rm" ["-rf", "/"]
      rfl (by decide),
   whitelist_rejects_unlisted_tool "rm -rf /" ["jq"] true "rm" ["-rf", "/"]
      rfl (by decide)⟩

/-- C2: the operator scanner is consulted if and only if the mode is safe:
with a whitelisted first token, relaxed mode always accepts (no rejection for
a shell operator), while safe mode rejects with the disallowed-operator error
exactly when the scanner finds a forbidden construct. -/
theorem operator_scan_only_in_safe_mode
    (raw : String) (allowed : List String) (first : String) (rest : List String)
    (htok : tokenize raw = some (first :: rest))
    (hmem : first ∈ allowed) :
    validate_and_split_command raw allowed true = .accepted (first :: rest) ∧
    (∀ op, detect_forbidden_operator raw = some op →
      validate_and_split_command raw allowed false = .disallowedOperator op) ∧
    (detect_forbidden_operator raw = none →
      validate_and_split_command raw allowed false = .accepted (first :: rest)) := by
  have hany : (allowed.any fun t => t == first) = true := by
    rw [List.any_eq_true]
    exact ⟨first, hmem, by simp⟩
  refine ⟨?_, ?_, ?_⟩
  · simp [validate_and_split_command, htok, hany]
  · intro op hop
    simp [validate_and_split_command, htok, hany, hop]
  · intro hop
    simp [validate_and_split_command, htok, hany, hop]

theorem operator_scan_only_in_safe_mode_witness :
    validate_and_split_command "find . -name '*.rs' | wc -l" ["find"] false =
      .disallowedOperator "|" ∧
    validate_and_split_command "find . -name '*.rs' | wc -l" ["find"] true =
      .accepted ["find", ".", "-name", "*.rs", "|", "wc", "-l"] :=
  ⟨(operator_scan_only_in_safe_mode "find . -name '*.rs' | wc -l" ["find"]
      "find" [".", "-name", "*.rs", "|", "wc", "-l"] rfl (by decide)).2.1 "|" rfl,
   (operator_scan_only_in_safe_mode "find . -name '*.rs' | wc -l" ["find"]
      "find" [".", "-name", "*.rs", "|", "wc", "-l"] rfl (by decide)).1⟩

/-- C9: validation fails fast in a fixed order before any whitelist or
operator check: a tokenizer parse error yields the malformed-command
rejection and an empty token sequence yields the empty-command rejection,
for every allowed set and mode, so no token sequence is ever returned. -/
theorem validation_fail_fast
    (raw : String) (allowed : List String) (relaxedMode : Bool) :
    (tokenize raw = none →
      validate_and_split_command raw allowed relaxedMode = .malformedCommand) ∧
    (tokenize raw = some [] →
      validate_and_split_command raw allowed relaxedMode = .emptyCommand) := by
  constructor <;> intro h <;> simp [validate_and_split_command, h]

theorem validation_fail_fast_witness :
    validate_and_split_command "jq '" ["jq"] false = .malformedCommand ∧
    validate_and_split_command "   " ["jq"] true = .emptyCommand :=
  ⟨(validation_fail_fast "jq '" ["jq"] false).1 rfl,
   (validation_fail_fast "   " ["jq"] true).2 rfl⟩


/-! ## Round-trip: joined plain tokens re-tokenize and re-scan cleanly -/

lemma joinTokens_data : ∀ ts : List String,
    (joinTokens ts).data = joinChars (ts.map String.data)
  | [] => rfl
  | [t] => rfl
  | t :: t2 :: ts => by
    have ih := joinTokens_data (t2 :: ts)
    simp only [joinTokens, joinChars, List.map_cons]
    rw [String.data_append, String.data_append, ih]
    simp [joinChars]

lemma plainChar_facts (c : Char) (h : plainChar c = true) :
    isSep c = false ∧ c ≠ '\'' ∧ c ≠ '"' ∧ c ≠ '\\' ∧ c ≠ '|' ∧ c ≠ '&' ∧
    c ≠ ';' ∧ c ≠ '>' ∧ c ≠ '<' ∧ c ≠ '$' ∧ c ≠ '`' := by
  simp only [plainChar, Bool.not_eq_true', Bool.or_eq_false_iff, beq_eq_false_iff_ne]
    at h
  exact ⟨h.1.1.1.1.1.1.1.1.1.1.1.1.1, h.1.1.1.1.1.1.1.1.1.1.1.1.2,
    h.1.1.1.1.1.1.1.1.1.1.1.2, h.1.1.1.1.1.1.1.1.1.1.2, h.1.1.1.1.1.1.1.1.1.2,
    h.1.1.1.1.1.1.1.1.2, h.1.1.1.1.1.1.1.2, h.1.1.1.1.1.1.2, h.1.1.1.1.1.2,
    h.1.1.1.1.2, h.1.1.1.2⟩

lemma tokGo_word_plain : ∀ (w' rest w : List Char) (acc : List (List Char)),
    (∀ c ∈ w', plainChar c = true) →
    tokGo .word (w' ++ rest) w acc = tokGo .word rest (w ++ w') acc := by
  intro w'
  induction w' with
  | nil => intro rest w acc _; simp
  | cons c w'' ih =>
    intro rest w acc h
    obtain ⟨hsep, hq1, hq2, hbs, -⟩ := plainChar_facts c (h c (by simp))
    rw [List.cons_append]
    show tokGo .word (c :: (w'' ++ rest)) w acc = _
    rw [show tokGo .word (c :: (w'' ++ rest)) w acc
        = tokGo .word (w'' ++ rest) (w ++ [c]) acc by
      simp [tokGo, hq1, hq2, hbs, hsep]]
    rw [ih rest (w ++ [c]) acc (fun d hd => h d (by simp [hd]))]
    simp

lemma tokGo_join_plain : ∀ (ts : List (List Char)) (acc : List (List Char)),
    (∀ t ∈ ts, t ≠ [] ∧ ∀ c ∈ t, plainChar c = true) →
    tokGo .delim (joinChars ts) [] acc = some (acc ++ ts) := by
  intro ts
  induction ts with
  | nil => intro acc _; simp [joinChars, tokGo]
  | cons t ts ih =>
    intro acc h
    obtain ⟨hne, hplain⟩ := h t (by simp)
    obtain ⟨c, w', rfl⟩ : ∃ c w', t = c :: w' := by
      cases t with
      | nil => exact absurd rfl hne
      | cons c w' => exact ⟨c, w', rfl⟩
    obtain ⟨hsep, hq1, hq2, hbs, -⟩ := plainChar_facts c (hplain c (by simp))
    have hplain' : ∀ d ∈ w', plainChar d = true := fun d hd => hplain d (by simp [hd])
    cases ts with
    | nil =>
      show tokGo .delim (c :: w') [] acc = some (acc ++ [c :: w'])
      rw [show tokGo .delim (c :: w') [] acc = tokGo .word w' [c] acc by
        simp [tokGo, hq1, hq2, hbs, hsep]]
      rw [show (w' : List Char) = w' ++ [] by simp] 
      rw [tokGo_word_plain w' [] [c] acc hplain']
      simp [tokGo]
    | cons t2 ts2 =>
      show tokGo .delim ((c :: w') ++ ' ' :: joinChars (t2 :: ts2)) [] acc = _
      rw [List.cons_append]
      rw [show tokGo .delim (c :: (w' ++ ' ' :: joinChars (t2 :: ts2))) [] acc
          = tokGo .word (w' ++ ' ' :: joinChars (t2 :: ts2)) [c] acc by
        simp [tokGo, hq1, hq2, hbs, hsep]]
      rw [tokGo_word_plain w' (' ' :: joinChars (t2 :: ts2)) [c] acc hplain']
      rw [show tokGo .word (' ' :: joinChars (t2 :: ts2)) ([c] ++ w') acc
          = tokGo .delim (joinChars (t2 :: ts2)) [] (acc ++ [c :: w']) by
        simp [tokGo, isSep]]
      rw [ih (acc ++ [c :: w']) (fun u hu => h u (by simp [hu]))]
      simp

lemma mem_joinChars : ∀ (ts : List (List Char)) (c : Char), c ∈ joinChars ts →
    (∃ t ∈ ts, c ∈ t) ∨ c = ' ' := by
  intro ts
  induction ts with
  | nil => intro c hc; simp [joinChars] at hc
  | cons t ts ih =>
    intro c hc
    cases ts with
    | nil =>
      simp only [joinChars] at hc
      exact Or.inl ⟨t, by simp, hc⟩
    | cons t2 ts2 =>
      simp only [joinChars, List.mem_append, List.mem_cons] at hc
      rcases hc with hc | hc | hc
      · exact Or.inl ⟨t, by simp, hc⟩
      · exact Or.inr hc
      · rcases ih c hc with ⟨u, hu, hcu⟩ | hsp
        · exact Or.inl ⟨u, by simp [hu], hcu⟩
        · exact Or.inr hsp

lemma detectGo_plain_sep : ∀ l : List Char,
    (∀ c ∈ l, plainChar c = true ∨ c = ' ') →
    detectGo l false false false = none := by
  intro l
  induction l with
  | nil => intro _; rfl
  | cons c t ih =>
    intro h
    have hc : c ≠ '\\' ∧ c ≠ '\'' ∧ c ≠ '"' ∧ c ≠ '$' ∧ c ≠ '`' ∧ c ≠ '|' ∧
        c ≠ '&' ∧ c ≠ ';' ∧ c ≠ '>' ∧ c ≠ '<' := by
      rcases h c (by simp) with hp | hp
      · obtain ⟨-, h1, h2, h3, h4, h5, h6, h7, h8, h9, h10⟩ := plainChar_facts c hp
        exact ⟨h3, h1, h2, h9, h10, h4, h5, h6, h7, h8⟩
      · subst hp
        refine ⟨?_, ?_, ?_, ?_, ?_, ?_, ?_, ?_, ?_, ?_⟩ <;> decide
    obtain ⟨h1, h2, h3, h4, h5, h6, h7, h8, h9, h10⟩ := hc
    rw [show detectGo (c :: t) false false false = detectGo t false false false by
      simp [detectGo, h1, h2, h3, h4, h5, h6, h7, h8, h9, h10]]
    exact ih (fun d hd => h d (by simp [hd]))


lemma map_mk_map_data : ∀ ts : List String,
    (ts.map String.data).map String.mk = ts
  | [] => rfl
  | t :: ts => by simpa using map_mk_map_data ts

/-- C7 as stated is refuted by `jq '|'`: validation accepts it with tokens
`["jq", "|"]`, none of which contains a glob metacharacter, yet re-validating
the single-space rejoin `jq |` with the same allowed set and mode rejects
with the disallowed-operator error instead of accepting. -/
theorem roundtrip_counterexample :
    validate_and_split_command "jq '|'" ["jq"] false = .accepted ["jq", "|"] ∧
    (∀ t ∈ (["jq", "|"] : List String), t.data.contains '*' = false ∧
      t.data.contains '?' = false ∧ t.data.contains '[' = false) ∧
    joinTokens ["jq", "|"] = "jq |" ∧
    validate_and_split_command (joinTokens ["jq", "|"]) ["jq"] false =
      .disallowedOperator "|" := by
  refine ⟨rfl, by decide, rfl, rfl⟩

/-- C7 amended: round-trip idempotence holds when, additionally, every
accepted token is non-empty and contains only plain characters — no
whitespace, quotes, backslashes, forbidden-operator or substitution
characters, and no glob metacharacters: then joining the tokens with
single-space separators and re-validating with the same allowed set and mode
accepts with an equal token sequence. -/
theorem roundtrip_amended
    (raw : String) (allowed : List String) (relaxedMode : Bool)
    (tokens : List String)
    (hv : validate_and_split_command raw allowed relaxedMode = .accepted tokens)
    (hp : ∀ t ∈ tokens, t.data ≠ [] ∧ ∀ c ∈ t.data, plainChar c = true) :
    validate_and_split_command (joinTokens tokens) allowed relaxedMode =
      .accepted tokens := by
  rcases htok : tokenize raw with _ | ts
  · simp [validate_and_split_command, htok] at hv
  cases ts with
  | nil => simp [validate_and_split_command, htok] at hv
  | cons first rest =>
    by_cases hany : (allowed.any fun t => t == first) = false
    · simp [validate_and_split_command, htok, hany] at hv
    · have hany' : (allowed.any fun t => t == first) = true := by
        cases hA : (allowed.any fun t => t == first)
        · exact absurd hA hany
        · rfl
      have htokens : tokens = first :: rest := by
        cases relaxedMode with
        | true =>
          simp [validate_and_split_command, htok, hany'] at hv
          exact hv.symm
        | false =>
          rcases hop : detect_forbidden_operator raw with _ | op
          · simp [validate_and_split_command, htok, hany', hop] at hv
            exact hv.symm
          · simp [validate_and_split_command, htok, hany', hop] at hv
      subst htokens
      have htok2 : tokenize (joinTokens (first :: rest)) = some (first :: rest) := by
        unfold tokenize
        rw [joinTokens_data]
        rw [tokGo_join_plain ((first :: rest).map String.data) []
          (by
            intro t ht
            rw [List.mem_map] at ht
            obtain ⟨u, hu, rfl⟩ := ht
            exact hp u hu)]
        rw [show ([] : List (List Char)) ++ (first :: rest).map String.data
            = (first :: rest).map String.data from List.nil_append _]
        show some (((first :: rest).map String.data).map String.mk) = _
        rw [map_mk_map_data]
      have hdet : detect_forbidden_operator (joinTokens (first :: rest)) = none := by
        unfold detect_forbidden_operator
        rw [joinTokens_data]
        apply detectGo_plain_sep
        intro c hc
        rcases mem_joinChars _ c hc with ⟨t, ht, hct⟩ | hsp
        · rw [List.mem_map] at ht
          obtain ⟨u, hu, rfl⟩ := ht
          exact Or.inl ((hp u hu).2 c hct)
        · exact Or.inr hsp
      cases relaxedMode with
      | true => simp [validate_and_split_command, htok2, hany']
      | false => simp [validate_and_split_command, htok2, hany', hdet]

theorem roundtrip_amended_witness :
    validate_and_split_command (joinTokens ["jq", ".foo", "file.json"]) ["jq"]
      false = .accepted ["jq", ".foo", "file.json"] :=
  roundtrip_amended "jq '.foo' file.json" ["jq"] false
    ["jq", ".foo", "file.json"] rfl (by decide)


/-! ## Claims about safe-mode glob expansion -/

/-- C8: in safe-mode execution each argument containing `*`, `?` or `[` is
glob-matched: a syntactically valid pattern with at least one successful
match is replaced by the match list (so the argument count may grow), while
an invalid pattern or one with no matches passes the literal argument string
through unchanged; with `a.txt` and `b.txt` present, `["cat", "*.txt"]`
invokes `cat` with the two filenames, never a single literal `*.txt`. -/
theorem safe_mode_glob_expansion :
    (∀ (globFs : String → Option (List (Option String))) (arg : String)
        (entries : List (Option String)),
      (arg.data.contains '*' = true ∨ arg.data.contains '?' = true ∨
        arg.data.contains '[' = true) →
      globFs arg = some entries → entries.filterMap id ≠ [] →
      expand_glob_if_needed globFs arg = entries.filterMap id) ∧
    (∀ (globFs : String → Option (List (Option String))) (arg : String)
        (entries : List (Option String)),
      globFs arg = some entries → entries.filterMap id = [] →
      expand_glob_if_needed globFs arg = [arg]) ∧
    (∀ (globFs : String → Option (List (Option String))) (arg : String),
      globFs arg = none → expand_glob_if_needed globFs arg = [arg]) ∧
    safe_mode_argv exampleFs ["cat", "*.txt"] = ["cat", "a.txt", "b.txt"] := by
  refine ⟨?_, ?_, ?_, rfl⟩
  · intro globFs arg entries hglob hfs hne
    have hcond : ¬(arg.data.contains '*' = false ∧ arg.data.contains '?' = false ∧
        arg.data.contains '[' = false) := by
      rintro ⟨h1, h2, h3⟩
      rcases hglob with h | h | h
      · rw [h1] at h; exact Bool.noConfusion h
      · rw [h2] at h; exact Bool.noConfusion h
      · rw [h3] at h; exact Bool.noConfusion h
    rw [expand_glob_if_needed, if_neg hcond, hfs]
    simp only [List.isEmpty_eq_true]
    rw [if_neg hne]
  · intro globFs arg entries hfs hemp
    by_cases hcond : arg.data.contains '*' = false ∧ arg.data.contains '?' = false ∧
        arg.data.contains '[' = false
    · rw [expand_glob_if_needed, if_pos hcond]
    · rw [expand_glob_if_needed, if_neg hcond, hfs]
      simp only [List.isEmpty_eq_true]
      rw [if_pos hemp]
  · intro globFs arg hfs
    by_cases hcond : arg.data.contains '*' = false ∧ arg.data.contains '?' = false ∧
        arg.data.contains '[' = false
    · rw [expand_glob_if_needed, if_pos hcond]
    · rw [expand_glob_if_needed, if_neg hcond, hfs]

theorem safe_mode_glob_expansion_witness :
    expand_glob_if_needed exampleFs "*.txt" = ["a.txt", "b.txt"] :=
  safe_mode_glob_expansion.1 exampleFs "*.txt" [some "a.txt", some "b.txt"]
    (by decide) rfl (by decide)

/-- C10: glob expansion never drops an argument: the result is always
non-empty, and in the edge case where the pattern matches but every entry
fails to be read, the literal argument is passed through. -/
theorem glob_expansion_never_drops_argument :
    (∀ (globFs : String → Option (List (Option String))) (arg : String),
      expand_glob_if_needed globFs arg ≠ []) ∧
    (∀ (globFs : String → Option (List (Option String))) (arg : String)
        (entries : List (Option String)),
      globFs arg = some entries → (∀ e ∈ entries, e = none) →
      expand_glob_if_needed globFs arg = [arg]) := by
  constructor
  · intro globFs arg
    rw [expand_glob_if_needed]
    split
    · simp
    · cases hfs : globFs arg with
      | none => simp
      | some entries =>
        simp only
        split
        · simp
        · next hne =>
          simp only [List.isEmpty_eq_true] at hne
          exact hne
  · intro globFs arg entries hfs hall
    have hemp : entries.filterMap id = [] := by
      rw [List.filterMap_eq_nil_iff]
      intro e he
      exact hall e he
    by_cases hcond : arg.data.contains '*' = false ∧ arg.data.contains '?' = false ∧
        arg.data.contains '[' = false
    · rw [expand_glob_if_needed, if_pos hcond]
    · rw [expand_glob_if_needed, if_neg hcond, hfs]
      simp only [List.isEmpty_eq_true]
      rw [if_pos hemp]

theorem glob_expansion_never_drops_argument_witness :
    expand_glob_if_needed (fun _ => some [none, none]) "*.log" = ["*.log"] :=
  glob_expansion_never_drops_argument.2 (fun _ => some [none, none]) "*.log"
    [none, none] rfl (by decide)

end Sai
